import Mathlib

/-!
Verification of the MatrixTree repository: a dense matrix represented as a
tree whose leaves hold raw row-major matrix blocks and whose internal nodes
represent the elementwise sum of their children's matrices.

The public operations (`matrix_tree_create`, `matrix_tree_set_leaf`,
`matrix_tree_set_internal`, `matrix_tree_collapse`,
`matrix_tree_multiply_collapsed`, `matrix_tree_scale`) are declared in
`src/matrix_tree.h` and implemented in assembly that is not part of the
C sources; they are modelled here from the specification.  The helper
`matrix_tree_create_leaf_with_data` is C code (`src/demo.c`,
`src/test_matrix_tree.c`, `src/check_tests.c`) and is embedded from that
source.  The `f64` scalar type is modelled by exact rationals `ℚ`.
-/

/-- A vector of `n` zeros, modelling a zero-initialized `f64` buffer. -/
def zeroVec (n : Nat) : List ℚ := List.replicate n 0

/-- Elementwise sum of two buffers (used for accumulation into an output
buffer; in the C API both buffers always have the same length). -/
def addVec (u v : List ℚ) : List ℚ := List.zipWith (· + ·) u v

/-- A `MatrixTreeNode` (struct of `src/matrix_tree.h`): `node_type`
(0 = leaf, 1 = internal), `rows`, `cols`, and a payload pointer that is
NULL right after `matrix_tree_create`, a `rows*cols` row-major `f64`
buffer once `matrix_tree_set_leaf` succeeded, or a child array once
`matrix_tree_set_internal` succeeded. -/
inductive Node : Type where
  | emptyNode (node_type rows cols : Nat)
  | leafNode (rows cols : Nat) (values : List ℚ)
  | internalNode (rows cols : Nat) (children : List Node)

/-- The `node_type` field: stored tag for an unpopulated node, 0 for a
populated leaf, 1 for a populated internal node. -/
def nodeTypeOf : Node → Nat
  | .emptyNode t _ _ => t
  | .leafNode _ _ _ => 0
  | .internalNode _ _ _ => 1

/-- The `rows` field. -/
def rowsOf : Node → Nat
  | .emptyNode _ r _ => r
  | .leafNode r _ _ => r
  | .internalNode r _ _ => r

/-- The `cols` field. -/
def colsOf : Node → Nat
  | .emptyNode _ _ c => c
  | .leafNode _ c _ => c
  | .internalNode _ c _ => c

mutual

/-- A fully built, well-formed tree: every populated leaf buffer has
exactly `rows*cols` elements, every internal node has a nonempty child
list whose members all share the parent's dimensions, and no node is
still unpopulated. -/
def wellFormed : Node → Bool
  | .emptyNode _ _ _ => false
  | .leafNode r c vs => vs.length == r * c
  | .internalNode r c cs => !cs.isEmpty && wfChildren r c cs

/-- `wfChildren r c cs`: every node in `cs` has dimensions `(r, c)` and is
itself well formed. -/
def wfChildren (r c : Nat) : List Node → Bool
  | [] => true
  | t :: ts => (rowsOf t == r) && (colsOf t == c) && wellFormed t && wfChildren r c ts

end

mutual

/-- Modelled from the spec: `matrix_tree_collapse(node, output)` writes
the dense matrix represented by `node` (assembly, not in `src/`).
Leaf: copy `values` into `output`.  Internal: zero an accumulator of
size `rows*cols`, then for each child add its collapsed matrix
elementwise into the accumulator.  The spec does not define collapse of
a node that was never populated; such nodes are excluded by
`wellFormed`, and the model returns the zero matrix for them. -/
def matrix_tree_collapse : Node → List ℚ
  | .emptyNode _ r c => zeroVec (r * c)
  | .leafNode _ _ vs => vs
  | .internalNode r c cs => collapseChildren (zeroVec (r * c)) cs

/-- The accumulation loop of the internal-node case of
`matrix_tree_collapse`: fold the children left to right, adding each
child's collapsed matrix into the accumulator. -/
def collapseChildren (acc : List ℚ) : List Node → List ℚ
  | [] => acc
  | t :: ts => collapseChildren (addVec acc (matrix_tree_collapse t)) ts

end

/-- Inner loop of the leaf matvec: the running sum
`Σ_{j<k} m[base+j] * x[j]` after `k` iterations. -/
def dotLoop (m x : List ℚ) (base : Nat) : Nat → ℚ
  | 0 => 0
  | k + 1 => dotLoop m x base k + m.getD (base + k) 0 * x.getD k 0

/-- Outer loop of the leaf matvec: for each row `i < k` of the row-major
matrix `m`, accumulate `y[i] += Σ_{j<c} m[i*c+j] * x[j]` in place. -/
def leafMultLoop (m x : List ℚ) (c : Nat) : Nat → List ℚ → List ℚ
  | 0, y => y
  | i + 1, y =>
    let y2 := leafMultLoop m x c i y
    y2.set i (y2.getD i 0 + dotLoop m x (i * c) c)

mutual

/-- Modelled from the spec: `matrix_tree_multiply_collapsed(node, x, y)`
computes `y = A·x` without materializing `A` (assembly, not in `src/`).
The caller zeroes `y` first and the operation accumulates into it (the
policy the repository's tests use).  Leaf: row-major dense matvec
`y[i] += Σ_j values[i*cols+j] * x[j]`.  Internal: recurse into `y` as an
accumulator, child after child.  An unpopulated node is excluded by
`wellFormed`; the model leaves `y` unchanged for it. -/
def matrix_tree_multiply_collapsed : Node → List ℚ → List ℚ → List ℚ
  | .emptyNode _ _ _, _, y => y
  | .leafNode r c vs, x, y => leafMultLoop vs x c r y
  | .internalNode _ _ cs, x, y => multiplyChildren cs x y

/-- The child loop of the internal-node case of
`matrix_tree_multiply_collapsed`: each child accumulates its
contribution into `y` in order. -/
def multiplyChildren : List Node → List ℚ → List ℚ → List ℚ
  | [], _, y => y
  | t :: ts, x, y => multiplyChildren ts x (matrix_tree_multiply_collapsed t x y)

end

mutual

/-- Modelled from the spec: `matrix_tree_scale(node, scalar)` multiplies
every reachable leaf's values by `scalar`, in place, recursively over
all children of an Internal node (assembly, not in `src/`).  The model
returns the post-call state of the node. -/
def matrix_tree_scale : Node → ℚ → Node
  | .emptyNode t r c, _ => .emptyNode t r c
  | .leafNode r c vs, a => .leafNode r c (vs.map (fun v => v * a))
  | .internalNode r c cs, a => .internalNode r c (scaleChildren cs a)

/-- The child loop of the internal-node case of `matrix_tree_scale`. -/
def scaleChildren : List Node → ℚ → List Node
  | [], _ => []
  | t :: ts, a => matrix_tree_scale t a :: scaleChildren ts a

end

/-- The standard dense row-major matrix-vector product, stated from the
spec's words: row `i` of the result is `Σ_{j<c} m[i*c+j] * x[j]`.  This
is the reference against which the tree-walking multiply is compared. -/
def denseRow (m x : List ℚ) (c i : Nat) : ℚ :=
  ((List.range c).map (fun j => m.getD (i * c + j) 0 * x.getD j 0)).sum

/-- Dense matrix-vector product `m · x` for an `r × c` row-major matrix
`m`, stated from the spec's words. -/
def denseMatVec (r c : Nat) (m x : List ℚ) : List ℚ :=
  (List.range r).map (fun i => denseRow m x c i)

/-- Modelled from the spec: `matrix_tree_create(rows, cols, node_type)`
allocates a node with the given tag and dimensions and a NULL payload
(assembly, not in `src/`).  `rows` and `cols` must be ≥ 1 (behaviour for
0 is rejected); allocation failure is not representable in the model, so
this is the only failure case. -/
def matrix_tree_create (rows cols : Nat) (node_type : Nat) : Option Node :=
  if rows = 0 ∨ cols = 0 then none
  else some (.emptyNode node_type rows cols)

/-- Modelled from the spec: `matrix_tree_set_leaf(node, data, byte_size)`
is only valid on a freshly created Leaf node with no data yet set; it
fails with a size-mismatch error (code 2) unless
`byte_size = rows*cols*sizeof(f64)` (`sizeof(f64) = 8`), fails on a NULL
node (code 1) and on a node that is not a fresh Leaf (code 3); on
success (code 0) it copies the first `byte_size` bytes of `data` into an
internally owned buffer.  The pair returned is (status, post-call node
state); on every failure the node is unchanged. -/
def matrix_tree_set_leaf : Option Node → List ℚ → Nat → Int × Option Node
  | none, _, _ => (1, none)
  | some n, data, byte_size =>
    match n with
    | .emptyNode 0 r c =>
      if byte_size = r * c * 8 then (0, some (.leafNode r c (data.take (r * c))))
      else (2, some n)
    | _ => (3, some n)

/-- All nodes of the list have dimensions `(r, c)` (the attach-time check
of `matrix_tree_set_internal`). -/
def dimsMatch (r c : Nat) : List Node → Bool
  | [] => true
  | t :: ts => (rowsOf t == r) && (colsOf t == c) && dimsMatch r c ts

/-- Modelled from the spec: `matrix_tree_set_internal(node, children,
count)` is only valid on a freshly created Internal node with no
children yet set; it fails on a NULL node (code 1), with zero children
(code 2), on a node that is not a fresh Internal (code 3), and when some
child's dimensions differ from the node's own (code 4); on success
(code 0) the children are retained in the given order.  The child array
together with its `count` is modelled as a Lean list.  The pair returned
is (status, post-call node state); on every failure the node is
unchanged. -/
def matrix_tree_set_internal : Option Node → List Node → Int × Option Node
  | none, _ => (1, none)
  | some n, children =>
    match n with
    | .emptyNode 1 r c =>
      if children.isEmpty then (2, some n)
      else if dimsMatch r c children then (0, some (.internalNode r c children))
      else (4, some n)
    | _ => (3, some n)

/-- Modelled from the spec: `matrix_tree_destroy(node)` releases the
node and its owned subtree.  Memory release is not representable in the
model; the call consumes the handle and returns nothing. -/
def matrix_tree_destroy (_ : Option Node) : Unit := ()

/-- The helper `matrix_tree_create_leaf_with_data(rows, cols, data)` of
`src/demo.c` (identically in `src/test_matrix_tree.c` and
`src/check_tests.c`): create a Leaf node, then set its data with
`byte_size = rows*cols*sizeof(double)`; on `set_leaf` failure destroy
the fresh node and return NULL. -/
def matrix_tree_create_leaf_with_data (rows cols : Nat) (data : List ℚ) : Option Node :=
  match matrix_tree_create rows cols 0 with
  | none => none
  | some node =>
    let size := rows * cols * 8
    let result := matrix_tree_set_leaf (some node) data size
    if result.1 ≠ 0 then
      let _ := matrix_tree_destroy (some node)
      none
    else result.2

/-- The structure of a node with leaf buffer contents erased: the type
tag, the dimensions, each leaf buffer's length, and the child tree
shape.  Used to state what `matrix_tree_scale` does not change. -/
inductive NodeShape : Type where
  | emptyShape (node_type rows cols : Nat)
  | leafShape (rows cols bufLen : Nat)
  | internalShape (rows cols : Nat) (children : List NodeShape)

mutual

/-- Erase leaf buffer contents, keeping tags, dimensions, buffer lengths
and the tree shape. -/
def shapeOf : Node → NodeShape
  | .emptyNode t r c => .emptyShape t r c
  | .leafNode r c vs => .leafShape r c vs.length
  | .internalNode r c cs => .internalShape r c (shapeChildren cs)

/-- `shapeOf` mapped over a child list. -/
def shapeChildren : List Node → List NodeShape
  | [] => []
  | t :: ts => shapeOf t :: shapeChildren ts

end

/-- Modelled from the spec: after construction, `collapse` is a pure
read using only thread-local scratch buffers, so the node state after
the call equals the state before.  The pair returned is (output buffer,
post-call node state). -/
def collapseOp (n : Node) : List ℚ × Node := (matrix_tree_collapse n, n)

/-- Modelled from the spec: after construction, `multiply` is a pure
read using only thread-local scratch buffers, so the node state after
the call equals the state before.  The pair returned is (output buffer,
post-call node state). -/
def multiplyOp (n : Node) (x y : List ℚ) : List ℚ × Node :=
  (matrix_tree_multiply_collapsed n x y, n)

mutual

/-- The structural invariant of the data model: each Internal node's
children all have the parent's `(rows, cols)`, recursively, and each
populated Leaf's buffer has exactly `rows*cols` elements.  An
unpopulated node satisfies it trivially. -/
def structInv : Node → Bool
  | .emptyNode _ _ _ => true
  | .leafNode r c vs => vs.length == r * c
  | .internalNode r c cs => invChildren r c cs

/-- `structInv` together with the dimension check over a child list. -/
def invChildren (r c : Nat) : List Node → Bool
  | [] => true
  | t :: ts => (rowsOf t == r) && (colsOf t == c) && structInv t && invChildren r c ts

end

/-- A node freshly created as a Leaf, with no data set yet. -/
def isFreshLeaf : Node → Bool
  | .emptyNode 0 _ _ => true
  | _ => false

/-- A node freshly created as an Internal node, with no children set yet. -/
def isFreshInternal : Node → Bool
  | .emptyNode 1 _ _ => true
  | _ => false

section VecLemmas

theorem length_zeroVec (n : Nat) : (zeroVec n).length = n := by
  simp [zeroVec]

theorem getD_zeroVec (n k : Nat) : (zeroVec n).getD k 0 = 0 := by
  unfold zeroVec
  rcases Nat.lt_or_ge k n with h | h
  · rw [List.getD_eq_getElem _ _ (by simpa using h)]
    simp
  · rw [List.getD_eq_default _ _ (by simpa using h)]

theorem length_addVec (u v : List ℚ) : (addVec u v).length = min u.length v.length := by
  simp [addVec]

theorem addVec_nil_right (u : List ℚ) : addVec u [] = [] := by
  simp [addVec]

theorem addVec_cons (a b : ℚ) (u v : List ℚ) :
    addVec (a :: u) (b :: v) = (a + b) :: addVec u v := rfl

theorem addVec_comm (u v : List ℚ) : addVec u v = addVec v u := by
  induction u generalizing v with
  | nil => cases v <;> simp [addVec]
  | cons a u ih =>
    cases v with
    | nil => simp [addVec]
    | cons b v => simp [addVec_cons, add_comm, ih v]

theorem addVec_assoc (u v w : List ℚ) :
    addVec (addVec u v) w = addVec u (addVec v w) := by
  induction u generalizing v w with
  | nil => simp [addVec]
  | cons a u ih =>
    cases v with
    | nil => simp [addVec]
    | cons b v =>
      cases w with
      | nil => simp [addVec]
      | cons d w => simp [addVec_cons, add_assoc, ih]

theorem addVec_left_comm (u v w : List ℚ) :
    addVec u (addVec v w) = addVec v (addVec u w) := by
  rw [← addVec_assoc, addVec_comm u v, addVec_assoc]

theorem addVec_zeroVec (u : List ℚ) (n : Nat) (h : u.length = n) :
    addVec u (zeroVec n) = u := by
  induction u generalizing n with
  | nil => simp [addVec]
  | cons a u ih =>
    cases n with
    | zero => simp at h
    | succ m =>
      simp only [zeroVec, List.replicate_succ]
      rw [addVec_cons, add_zero]
      have : addVec u (zeroVec m) = u := ih m (by simpa using h)
      simpa [zeroVec] using this

theorem zeroVec_addVec (u : List ℚ) (n : Nat) (h : u.length = n) :
    addVec (zeroVec n) u = u := by
  rw [addVec_comm]
  exact addVec_zeroVec u n h

theorem getD_addVec (u v : List ℚ) (k : Nat) (h : u.length = v.length) :
    (addVec u v).getD k 0 = u.getD k 0 + v.getD k 0 := by
  induction u generalizing v k with
  | nil =>
    cases v with
    | nil => simp [addVec]
    | cons b v => simp at h
  | cons a u ih =>
    cases v with
    | nil => simp at h
    | cons b v =>
      rw [addVec_cons]
      cases k with
      | zero => simp
      | succ m =>
        simp only [List.getD_cons_succ]
        exact ih v m (by simpa using h)

theorem map_mul_addVec (a : ℚ) (u v : List ℚ) :
    (addVec u v).map (fun x => a * x) = addVec (u.map (fun x => a * x)) (v.map (fun x => a * x)) := by
  induction u generalizing v with
  | nil => simp [addVec]
  | cons b u ih =>
    cases v with
    | nil => simp [addVec]
    | cons d v => simp [addVec_cons, mul_add, ih]

theorem map_mul_zeroVec (a : ℚ) (n : Nat) :
    (zeroVec n).map (fun x => a * x) = zeroVec n := by
  simp [zeroVec]

end VecLemmas

section CollapseLemmas

theorem wfChildren_cons (r c : Nat) (t : Node) (ts : List Node) :
    wfChildren r c (t :: ts) = true ↔
      rowsOf t = r ∧ colsOf t = c ∧ wellFormed t = true ∧ wfChildren r c ts = true := by
  simp [wfChildren, and_assoc]

theorem wellFormed_internal (r c : Nat) (cs : List Node) :
    wellFormed (Node.internalNode r c cs) = true ↔
      cs ≠ [] ∧ wfChildren r c cs = true := by
  simp [wellFormed, List.isEmpty_iff]

mutual

theorem length_collapse (n : Node) (h : wellFormed n = true) :
    (matrix_tree_collapse n).length = rowsOf n * colsOf n := by
  cases n with
  | emptyNode t r c => simp [wellFormed] at h
  | leafNode r c vs =>
    simp [wellFormed] at h
    simp [matrix_tree_collapse, rowsOf, colsOf, h]
  | internalNode r c cs =>
    rw [wellFormed_internal] at h
    have := length_collapseChildren r c (zeroVec (r * c)) cs (length_zeroVec _) h.2
    simpa [matrix_tree_collapse, rowsOf, colsOf] using this

theorem length_collapseChildren (r c : Nat) (acc : List ℚ) (ts : List Node)
    (hacc : acc.length = r * c) (h : wfChildren r c ts = true) :
    (collapseChildren acc ts).length = r * c := by
  cases ts with
  | nil => simpa [collapseChildren] using hacc
  | cons t ts =>
    rw [wfChildren_cons] at h
    have hlen : (matrix_tree_collapse t).length = r * c := by
      rw [length_collapse t h.2.2.1, h.1, h.2.1]
    have hacc2 : (addVec acc (matrix_tree_collapse t)).length = r * c := by
      rw [length_addVec, hacc, hlen, Nat.min_self]
    simpa [collapseChildren] using
      length_collapseChildren r c (addVec acc (matrix_tree_collapse t)) ts hacc2 h.2.2.2

end

end CollapseLemmas

theorem wfChildren_mem (r c : Nat) (ts : List Node) (h : wfChildren r c ts = true) :
    ∀ t ∈ ts, rowsOf t = r ∧ colsOf t = c ∧ wellFormed t = true := by
  induction ts with
  | nil => simp
  | cons t ts ih =>
    rw [wfChildren_cons] at h
    intro u hu
    rcases List.mem_cons.mp hu with rfl | hu
    · exact ⟨h.1, h.2.1, h.2.2.1⟩
    · exact ih h.2.2.2 u hu

theorem wfChildren_of_forall (r c : Nat) (ts : List Node)
    (h : ∀ t ∈ ts, rowsOf t = r ∧ colsOf t = c ∧ wellFormed t = true) :
    wfChildren r c ts = true := by
  induction ts with
  | nil => simp [wfChildren]
  | cons t ts ih =>
    rw [wfChildren_cons]
    obtain ⟨h1, h2, h3⟩ := h t (List.mem_cons_self t ts)
    exact ⟨h1, h2, h3, ih (fun u hu => h u (List.mem_cons_of_mem t hu))⟩

theorem length_foldr_addVec (n : Nat) (l : List (List ℚ)) (h : ∀ v ∈ l, v.length = n) :
    (List.foldr addVec (zeroVec n) l).length = n := by
  induction l with
  | nil => simp [length_zeroVec]
  | cons v l ih =>
    simp only [List.foldr_cons, length_addVec]
    rw [h v (List.mem_cons_self v l), ih (fun u hu => h u (List.mem_cons_of_mem v hu)),
      Nat.min_self]

theorem collapseChildren_eq_foldr (n : Nat) (ts : List Node) (acc : List ℚ)
    (hacc : acc.length = n)
    (hts : ∀ t ∈ ts, (matrix_tree_collapse t).length = n) :
    collapseChildren acc ts
      = addVec acc (List.foldr addVec (zeroVec n) (ts.map matrix_tree_collapse)) := by
  induction ts generalizing acc with
  | nil =>
    simp only [collapseChildren, List.map_nil, List.foldr_nil]
    exact (addVec_zeroVec acc n hacc).symm
  | cons t ts ih =>
    have hlen : (addVec acc (matrix_tree_collapse t)).length = n := by
      rw [length_addVec, hacc, hts t (List.mem_cons_self t ts), Nat.min_self]
    simp only [collapseChildren, List.map_cons, List.foldr_cons]
    rw [ih (addVec acc (matrix_tree_collapse t)) hlen
      (fun u hu => hts u (List.mem_cons_of_mem t hu))]
    rw [addVec_assoc]

theorem foldr_addVec_perm (z : List ℚ) (l l2 : List (List ℚ)) (h : l.Perm l2) :
    List.foldr addVec z l = List.foldr addVec z l2 := by
  induction h with
  | nil => rfl
  | cons x _ ih => simp only [List.foldr_cons, ih]
  | swap x y l => simp only [List.foldr_cons]; exact (addVec_left_comm y x _)
  | trans _ _ ih1 ih2 => rw [ih1, ih2]

theorem collapse_internal_eq_sum (r c : Nat) (cs : List Node)
    (h : wfChildren r c cs = true) :
    matrix_tree_collapse (Node.internalNode r c cs)
      = List.foldr addVec (zeroVec (r * c)) (cs.map matrix_tree_collapse) := by
  have hlen : ∀ t ∈ cs, (matrix_tree_collapse t).length = r * c := by
    intro t ht
    obtain ⟨h1, h2, h3⟩ := wfChildren_mem r c cs h t ht
    rw [length_collapse t h3, h1, h2]
  have hmap : ∀ v ∈ cs.map matrix_tree_collapse, v.length = r * c := by
    intro v hv
    obtain ⟨t, ht, rfl⟩ := List.mem_map.mp hv
    exact hlen t ht
  simp only [matrix_tree_collapse]
  rw [collapseChildren_eq_foldr (r * c) cs _ (length_zeroVec _) hlen]
  exact zeroVec_addVec _ _ (length_foldr_addVec _ _ hmap)

theorem collapse_internal_perm (r c : Nat) (cs cs2 : List Node)
    (h : wfChildren r c cs = true) (hp : cs.Perm cs2) :
    matrix_tree_collapse (Node.internalNode r c cs)
      = matrix_tree_collapse (Node.internalNode r c cs2) := by
  have h2 : wfChildren r c cs2 = true := by
    apply wfChildren_of_forall
    intro t ht
    exact wfChildren_mem r c cs h t (hp.mem_iff.mpr ht)
  rw [collapse_internal_eq_sum r c cs h, collapse_internal_eq_sum r c cs2 h2]
  exact foldr_addVec_perm _ _ _ (hp.map matrix_tree_collapse)

section MultiplyLemmas

theorem dotLoop_eq_sum (m x : List ℚ) (base k : Nat) :
    dotLoop m x base k
      = ((List.range k).map (fun j => m.getD (base + j) 0 * x.getD j 0)).sum := by
  induction k with
  | zero => simp [dotLoop]
  | succ k ih => rw [dotLoop, List.range_succ]; simp [ih]

theorem length_leafMultLoop (m x : List ℚ) (c k : Nat) (y : List ℚ) :
    (leafMultLoop m x c k y).length = y.length := by
  induction k with
  | zero => rfl
  | succ k ih => simp only [leafMultLoop, List.length_set]; exact ih

theorem getD_set_ne (l : List ℚ) (i j : Nat) (v : ℚ) (h : i ≠ j) :
    (l.set i v).getD j 0 = l.getD j 0 := by
  rw [List.getD_eq_getElem?_getD, List.getD_eq_getElem?_getD, List.getElem?_set_ne h]

theorem getD_set_self (l : List ℚ) (i : Nat) (v : ℚ) (h : i < l.length) :
    (l.set i v).getD i 0 = v := by
  rw [List.getD_eq_getElem?_getD, List.getElem?_set_self h]
  rfl

theorem getD_leafMultLoop_ge (m x : List ℚ) (c k : Nat) (y : List ℚ) (i : Nat)
    (h : k ≤ i) : (leafMultLoop m x c k y).getD i 0 = y.getD i 0 := by
  induction k with
  | zero => rfl
  | succ k ih =>
    simp only [leafMultLoop]
    rw [getD_set_ne _ _ _ _ (by omega), ih (by omega)]

theorem getD_leafMultLoop_lt (m x : List ℚ) (c k : Nat) (y : List ℚ) (i : Nat)
    (hk : k ≤ y.length) (h : i < k) :
    (leafMultLoop m x c k y).getD i 0 = y.getD i 0 + dotLoop m x (i * c) c := by
  induction k with
  | zero => omega
  | succ k ih =>
    simp only [leafMultLoop]
    rcases Nat.lt_or_ge i k with hik | hik
    · rw [getD_set_ne _ _ _ _ (by omega), ih (by omega) hik]
    · have hik2 : i = k := by omega
      subst hik2
      rw [getD_set_self _ _ _ (by rw [length_leafMultLoop]; omega),
        getD_leafMultLoop_ge m x c i y i le_rfl]

theorem length_denseMatVec (r c : Nat) (m x : List ℚ) :
    (denseMatVec r c m x).length = r := by
  simp [denseMatVec]

theorem getD_denseMatVec (r c : Nat) (m x : List ℚ) (i : Nat) (h : i < r) :
    (denseMatVec r c m x).getD i 0 = denseRow m x c i := by
  unfold denseMatVec
  rw [List.getD_eq_getElem _ _ (by simpa using h)]
  simp

theorem leafMultLoop_eq_addVec (m x : List ℚ) (r c : Nat) (y : List ℚ)
    (hy : y.length = r) :
    leafMultLoop m x c r y = addVec y (denseMatVec r c m x) := by
  have hl : (leafMultLoop m x c r y).length = r := by
    rw [length_leafMultLoop, hy]
  have hr : (addVec y (denseMatVec r c m x)).length = r := by
    rw [length_addVec, hy, length_denseMatVec, Nat.min_self]
  apply List.ext_getElem (by rw [hl, hr])
  intro i h1 h2
  rw [← List.getD_eq_getElem _ 0 h1, ← List.getD_eq_getElem _ 0 h2]
  have hi : i < r := by rwa [hl] at h1
  rw [getD_leafMultLoop_lt m x c r y i (by omega) hi,
    getD_addVec y _ i (by rw [hy, length_denseMatVec]),
    getD_denseMatVec r c m x i hi, denseRow, dotLoop_eq_sum]

theorem sum_map_add_distrib (l : List Nat) (f g : Nat → ℚ) :
    (l.map (fun j => f j + g j)).sum = (l.map f).sum + (l.map g).sum := by
  induction l with
  | nil => simp
  | cons a l ih => simp [ih]; ring

theorem denseRow_addVec (m1 m2 x : List ℚ) (c i : Nat) (h : m1.length = m2.length) :
    denseRow (addVec m1 m2) x c i = denseRow m1 x c i + denseRow m2 x c i := by
  unfold denseRow
  rw [← sum_map_add_distrib]
  congr 1
  apply List.map_congr_left
  intro j _
  rw [getD_addVec _ _ _ h, add_mul]

theorem denseRow_zeroVec (n : Nat) (x : List ℚ) (c i : Nat) :
    denseRow (zeroVec n) x c i = 0 := by
  unfold denseRow
  have hmap : ∀ j ∈ List.range c,
      (zeroVec n).getD (i * c + j) 0 * x.getD j 0 = (fun _ : Nat => (0 : ℚ)) j := by
    intro j _
    rw [getD_zeroVec, zero_mul]
  rw [List.map_congr_left hmap]
  simp

theorem denseMatVec_addVec (r c : Nat) (m1 m2 x : List ℚ) (h : m1.length = m2.length) :
    denseMatVec r c (addVec m1 m2) x
      = addVec (denseMatVec r c m1 x) (denseMatVec r c m2 x) := by
  apply List.ext_getElem
  · rw [length_denseMatVec, length_addVec, length_denseMatVec, length_denseMatVec,
      Nat.min_self]
  intro i h1 h2
  have hi : i < r := by rwa [length_denseMatVec] at h1
  rw [← List.getD_eq_getElem _ 0 h1, ← List.getD_eq_getElem _ 0 h2,
    getD_denseMatVec _ _ _ _ _ hi,
    getD_addVec _ _ _ (by rw [length_denseMatVec, length_denseMatVec]),
    getD_denseMatVec _ _ _ _ _ hi, getD_denseMatVec _ _ _ _ _ hi,
    denseRow_addVec _ _ _ _ _ h]

theorem denseMatVec_zeroVec (r c n : Nat) (x : List ℚ) :
    denseMatVec r c (zeroVec n) x = zeroVec r := by
  unfold denseMatVec zeroVec
  rw [List.eq_replicate_iff]
  constructor
  · simp
  · intro b hb
    obtain ⟨i, _, rfl⟩ := List.mem_map.mp hb
    exact denseRow_zeroVec n x c i

end MultiplyLemmas

mutual

theorem multiply_eq_dense (n : Node) (x y : List ℚ) (h : wellFormed n = true)
    (hx : x.length = colsOf n) (hy : y.length = rowsOf n) :
    matrix_tree_multiply_collapsed n x y
      = addVec y (denseMatVec (rowsOf n) (colsOf n) (matrix_tree_collapse n) x) := by
  cases n with
  | emptyNode t r c => simp [wellFormed] at h
  | leafNode r c vs =>
    simp only [matrix_tree_multiply_collapsed, matrix_tree_collapse, rowsOf, colsOf] at *
    exact leafMultLoop_eq_addVec vs x r c y hy
  | internalNode r c cs =>
    rw [wellFormed_internal] at h
    simp only [rowsOf, colsOf] at hx hy
    simp only [matrix_tree_multiply_collapsed, rowsOf, colsOf]
    rw [collapse_internal_eq_sum r c cs h.2]
    exact multiplyChildren_eq_dense r c cs x y h.2 hx hy

theorem multiplyChildren_eq_dense (r c : Nat) (ts : List Node) (x y : List ℚ)
    (h : wfChildren r c ts = true) (hx : x.length = c) (hy : y.length = r) :
    multiplyChildren ts x y
      = addVec y (denseMatVec r c
          (List.foldr addVec (zeroVec (r * c)) (ts.map matrix_tree_collapse)) x) := by
  cases ts with
  | nil =>
    simp only [multiplyChildren, List.map_nil, List.foldr_nil]
    rw [denseMatVec_zeroVec, addVec_zeroVec y r hy]
  | cons t ts =>
    rw [wfChildren_cons] at h
    obtain ⟨hr, hc, hwf, hrest⟩ := h
    have hct : (matrix_tree_collapse t).length = r * c := by
      rw [length_collapse t hwf, hr, hc]
    have hmap : ∀ v ∈ ts.map matrix_tree_collapse, v.length = r * c := by
      intro v hv
      obtain ⟨u, hu, rfl⟩ := List.mem_map.mp hv
      obtain ⟨h1, h2, h3⟩ := wfChildren_mem r c ts hrest u hu
      rw [length_collapse u h3, h1, h2]
    have hsum : (List.foldr addVec (zeroVec (r * c)) (ts.map matrix_tree_collapse)).length
        = r * c := length_foldr_addVec _ _ hmap
    have hmt : matrix_tree_multiply_collapsed t x y
        = addVec y (denseMatVec r c (matrix_tree_collapse t) x) := by
      have := multiply_eq_dense t x y hwf (by rw [hx, hc]) (by rw [hy, hr])
      rwa [hr, hc] at this
    have hylen : (addVec y (denseMatVec r c (matrix_tree_collapse t) x)).length = r := by
      rw [length_addVec, hy, length_denseMatVec, Nat.min_self]
    simp only [multiplyChildren, List.map_cons, List.foldr_cons]
    rw [hmt, multiplyChildren_eq_dense r c ts x _ hrest hx hylen,
      addVec_assoc, ← denseMatVec_addVec r c _ _ x (by rw [hct, hsum])]

end

section ScaleLemmas

theorem rowsOf_scale (n : Node) (a : ℚ) : rowsOf (matrix_tree_scale n a) = rowsOf n := by
  cases n <;> simp [matrix_tree_scale, rowsOf]

theorem colsOf_scale (n : Node) (a : ℚ) : colsOf (matrix_tree_scale n a) = colsOf n := by
  cases n <;> simp [matrix_tree_scale, colsOf]

theorem length_scaleChildren (ts : List Node) (a : ℚ) :
    (scaleChildren ts a).length = ts.length := by
  induction ts with
  | nil => rfl
  | cons t ts ih => simp only [scaleChildren, List.length_cons, ih]

mutual

theorem collapse_scale (n : Node) (a : ℚ) :
    matrix_tree_collapse (matrix_tree_scale n a)
      = (matrix_tree_collapse n).map (fun v => a * v) := by
  cases n with
  | emptyNode t r c =>
    simp only [matrix_tree_scale, matrix_tree_collapse]
    exact (map_mul_zeroVec a (r * c)).symm
  | leafNode r c vs =>
    simp only [matrix_tree_scale, matrix_tree_collapse]
    exact List.map_congr_left (fun v _ => mul_comm v a)
  | internalNode r c cs =>
    simp only [matrix_tree_scale, matrix_tree_collapse]
    nth_rewrite 1 [← map_mul_zeroVec a (r * c)]
    exact collapseChildren_scale a cs (zeroVec (r * c))

theorem collapseChildren_scale (a : ℚ) (ts : List Node) (acc : List ℚ) :
    collapseChildren (acc.map (fun v => a * v)) (scaleChildren ts a)
      = (collapseChildren acc ts).map (fun v => a * v) := by
  cases ts with
  | nil => simp only [scaleChildren, collapseChildren]
  | cons t ts =>
    simp only [scaleChildren, collapseChildren]
    rw [collapse_scale t a, ← map_mul_addVec a acc (matrix_tree_collapse t)]
    exact collapseChildren_scale a ts (addVec acc (matrix_tree_collapse t))

end

mutual

theorem scale_scale (n : Node) (a b : ℚ) :
    matrix_tree_scale (matrix_tree_scale n a) b = matrix_tree_scale n (a * b) := by
  cases n with
  | emptyNode t r c => rfl
  | leafNode r c vs =>
    simp only [matrix_tree_scale, List.map_map]
    congr 1
    exact List.map_congr_left (fun v _ => mul_assoc v a b)
  | internalNode r c cs =>
    simp only [matrix_tree_scale]
    rw [scaleChildren_scaleChildren cs a b]

theorem scaleChildren_scaleChildren (ts : List Node) (a b : ℚ) :
    scaleChildren (scaleChildren ts a) b = scaleChildren ts (a * b) := by
  cases ts with
  | nil => rfl
  | cons t ts =>
    simp only [scaleChildren]
    rw [scale_scale t a b, scaleChildren_scaleChildren ts a b]

end

mutual

theorem shapeOf_scale (n : Node) (a : ℚ) :
    shapeOf (matrix_tree_scale n a) = shapeOf n := by
  cases n with
  | emptyNode t r c => rfl
  | leafNode r c vs => simp only [matrix_tree_scale, shapeOf, List.length_map]
  | internalNode r c cs =>
    simp only [matrix_tree_scale, shapeOf]
    rw [shapeChildren_scale cs a]

theorem shapeChildren_scale (ts : List Node) (a : ℚ) :
    shapeChildren (scaleChildren ts a) = shapeChildren ts := by
  cases ts with
  | nil => rfl
  | cons t ts =>
    simp only [scaleChildren, shapeChildren]
    rw [shapeOf_scale t a, shapeChildren_scale ts a]

end

mutual

theorem wellFormed_scale (n : Node) (a : ℚ) :
    wellFormed (matrix_tree_scale n a) = wellFormed n := by
  cases n with
  | emptyNode t r c => rfl
  | leafNode r c vs => simp only [matrix_tree_scale, wellFormed, List.length_map]
  | internalNode r c cs =>
    simp only [matrix_tree_scale, wellFormed]
    rw [wfChildren_scale r c cs a]
    have he : (scaleChildren cs a).isEmpty = cs.isEmpty := by
      cases cs <;> rfl
    rw [he]

theorem wfChildren_scale (r c : Nat) (ts : List Node) (a : ℚ) :
    wfChildren r c (scaleChildren ts a) = wfChildren r c ts := by
  cases ts with
  | nil => rfl
  | cons t ts =>
    simp only [scaleChildren, wfChildren]
    rw [rowsOf_scale t a, colsOf_scale t a, wellFormed_scale t a, wfChildren_scale r c ts a]

end

mutual

theorem structInv_scale (n : Node) (a : ℚ) :
    structInv (matrix_tree_scale n a) = structInv n := by
  cases n with
  | emptyNode t r c => rfl
  | leafNode r c vs => simp only [matrix_tree_scale, structInv, List.length_map]
  | internalNode r c cs =>
    simp only [matrix_tree_scale, structInv]
    rw [invChildren_scale r c cs a]

theorem invChildren_scale (r c : Nat) (ts : List Node) (a : ℚ) :
    invChildren r c (scaleChildren ts a) = invChildren r c ts := by
  cases ts with
  | nil => rfl
  | cons t ts =>
    simp only [scaleChildren, invChildren]
    rw [rowsOf_scale t a, colsOf_scale t a, structInv_scale t a, invChildren_scale r c ts a]

end

end ScaleLemmas

section SetterLemmas

theorem dimsMatch_iff (r c : Nat) (ts : List Node) :
    dimsMatch r c ts = true ↔ ∀ t ∈ ts, rowsOf t = r ∧ colsOf t = c := by
  induction ts with
  | nil => simp [dimsMatch]
  | cons t ts ih =>
    simp only [dimsMatch, Bool.and_eq_true, beq_iff_eq, List.mem_cons]
    constructor
    · rintro ⟨⟨h1, h2⟩, h3⟩ u hu
      rcases hu with rfl | hu
      · exact ⟨h1, h2⟩
      · exact ih.mp h3 u hu
    · intro h
      exact ⟨⟨(h t (Or.inl rfl)).1, (h t (Or.inl rfl)).2⟩,
        ih.mpr (fun u hu => h u (Or.inr hu))⟩

theorem invChildren_of_forall (r c : Nat) (ts : List Node)
    (h : ∀ t ∈ ts, rowsOf t = r ∧ colsOf t = c ∧ structInv t = true) :
    invChildren r c ts = true := by
  induction ts with
  | nil => simp [invChildren]
  | cons t ts ih =>
    obtain ⟨h1, h2, h3⟩ := h t (List.mem_cons_self t ts)
    simp only [invChildren, Bool.and_eq_true, beq_iff_eq]
    exact ⟨⟨⟨h1, h2⟩, h3⟩, ih (fun u hu => h u (List.mem_cons_of_mem t hu))⟩

theorem set_leaf_fresh (r c : Nat) (data : List ℚ) (bs : Nat) :
    matrix_tree_set_leaf (some (Node.emptyNode 0 r c)) data bs
      = if bs = r * c * 8 then (0, some (Node.leafNode r c (data.take (r * c))))
        else (2, some (Node.emptyNode 0 r c)) := by
  rfl

theorem set_leaf_not_fresh (n : Node) (data : List ℚ) (bs : Nat)
    (h : isFreshLeaf n = false) :
    matrix_tree_set_leaf (some n) data bs = (3, some n) := by
  cases n with
  | emptyNode t r c =>
    cases t with
    | zero => simp [isFreshLeaf] at h
    | succ m => rfl
  | leafNode r c vs => rfl
  | internalNode r c cs => rfl

theorem set_internal_fresh (r c : Nat) (cs : List Node) :
    matrix_tree_set_internal (some (Node.emptyNode 1 r c)) cs
      = if cs.isEmpty then (2, some (Node.emptyNode 1 r c))
        else if dimsMatch r c cs then (0, some (Node.internalNode r c cs))
        else (4, some (Node.emptyNode 1 r c)) := by
  rfl

theorem set_internal_not_fresh (n : Node) (cs : List Node)
    (h : isFreshInternal n = false) :
    matrix_tree_set_internal (some n) cs = (3, some n) := by
  cases n with
  | emptyNode t r c =>
    cases t with
    | zero => rfl
    | succ m =>
      cases m with
      | zero => simp [isFreshInternal] at h
      | succ k => rfl
  | leafNode r c vs => rfl
  | internalNode r c cs2 => rfl

theorem set_leaf_dims (n : Node) (data : List ℚ) (bs : Nat) (s : Int) (n2 : Node)
    (h : matrix_tree_set_leaf (some n) data bs = (s, some n2)) :
    rowsOf n2 = rowsOf n ∧ colsOf n2 = colsOf n := by
  rcases hfresh : isFreshLeaf n with _ | _
  · rw [set_leaf_not_fresh n data bs hfresh] at h
    injection h with h1 h2
    injection h2 with h2
    rw [← h2]
    exact ⟨rfl, rfl⟩
  · cases n with
    | emptyNode t r c =>
      cases t with
      | zero =>
        rw [set_leaf_fresh] at h
        by_cases hbs : bs = r * c * 8
        · rw [if_pos hbs] at h
          injection h with h1 h2
          injection h2 with h2
          rw [← h2]
          exact ⟨rfl, rfl⟩
        · rw [if_neg hbs] at h
          injection h with h1 h2
          injection h2 with h2
          rw [← h2]
          exact ⟨rfl, rfl⟩
      | succ m => simp [isFreshLeaf] at hfresh
    | leafNode r c vs => simp [isFreshLeaf] at hfresh
    | internalNode r c cs => simp [isFreshLeaf] at hfresh

theorem set_internal_dims (n : Node) (cs : List Node) (s : Int) (n2 : Node)
    (h : matrix_tree_set_internal (some n) cs = (s, some n2)) :
    rowsOf n2 = rowsOf n ∧ colsOf n2 = colsOf n := by
  rcases hfresh : isFreshInternal n with _ | _
  · rw [set_internal_not_fresh n cs hfresh] at h
    injection h with h1 h2
    injection h2 with h2
    rw [← h2]
    exact ⟨rfl, rfl⟩
  · cases n with
    | emptyNode t r c =>
      cases t with
      | zero => simp [isFreshInternal] at hfresh
      | succ m =>
        cases m with
        | zero =>
          rw [set_internal_fresh] at h
          by_cases he : cs.isEmpty
          · rw [if_pos he] at h
            injection h with h1 h2
            injection h2 with h2
            rw [← h2]
            exact ⟨rfl, rfl⟩
          · rw [if_neg he] at h
            by_cases hd : dimsMatch r c cs = true
            · rw [if_pos hd] at h
              injection h with h1 h2
              injection h2 with h2
              rw [← h2]
              exact ⟨rfl, rfl⟩
            · rw [if_neg hd] at h
              injection h with h1 h2
              injection h2 with h2
              rw [← h2]
              exact ⟨rfl, rfl⟩
        | succ k => simp [isFreshInternal] at hfresh
    | leafNode r c vs => simp [isFreshInternal] at hfresh
    | internalNode r c cs2 => simp [isFreshInternal] at hfresh

end SetterLemmas

/-- The trees reachable through the public operations: a node freshly
returned by `matrix_tree_create`, the post-state of a valid
`matrix_tree_set_leaf` call (the caller's buffer covers the copied
`rows*cols` elements), the post-state of a `matrix_tree_set_internal`
call whose children are themselves reachable, and the post-state of
`matrix_tree_scale`.  `matrix_tree_collapse` and
`matrix_tree_multiply_collapsed` take no node to a new state. -/
inductive ReachableNode : Node → Prop where
  | created (r c k : Nat) (n : Node) (h : matrix_tree_create r c k = some n) :
      ReachableNode n
  | viaSetLeaf (n : Node) (data : List ℚ) (bs : Nat) (s : Int) (n2 : Node)
      (hn : ReachableNode n) (hdata : rowsOf n * colsOf n ≤ data.length)
      (h : matrix_tree_set_leaf (some n) data bs = (s, some n2)) : ReachableNode n2
  | viaSetInternal (n : Node) (cs : List Node) (s : Int) (n2 : Node)
      (hn : ReachableNode n) (hcs : ∀ t ∈ cs, ReachableNode t)
      (h : matrix_tree_set_internal (some n) cs = (s, some n2)) : ReachableNode n2
  | viaScale (n : Node) (a : ℚ) (hn : ReachableNode n) :
      ReachableNode (matrix_tree_scale n a)

theorem set_leaf_cases (n : Node) (data : List ℚ) (bs : Nat) (s : Int) (n2 : Node)
    (h : matrix_tree_set_leaf (some n) data bs = (s, some n2)) :
    n2 = n ∨ n2 = Node.leafNode (rowsOf n) (colsOf n)
      (data.take (rowsOf n * colsOf n)) := by
  rcases hfresh : isFreshLeaf n with _ | _
  · rw [set_leaf_not_fresh n data bs hfresh] at h
    injection h with h1 h2
    injection h2 with h2
    exact Or.inl h2.symm
  · cases n with
    | emptyNode t r c =>
      cases t with
      | zero =>
        rw [set_leaf_fresh] at h
        by_cases hbs : bs = r * c * 8
        · rw [if_pos hbs] at h
          injection h with h1 h2
          injection h2 with h2
          exact Or.inr h2.symm
        · rw [if_neg hbs] at h
          injection h with h1 h2
          injection h2 with h2
          exact Or.inl h2.symm
      | succ m => simp [isFreshLeaf] at hfresh
    | leafNode r c vs => simp [isFreshLeaf] at hfresh
    | internalNode r c cs => simp [isFreshLeaf] at hfresh

theorem set_internal_cases (n : Node) (cs : List Node) (s : Int) (n2 : Node)
    (h : matrix_tree_set_internal (some n) cs = (s, some n2)) :
    n2 = n ∨ (n2 = Node.internalNode (rowsOf n) (colsOf n) cs
      ∧ dimsMatch (rowsOf n) (colsOf n) cs = true) := by
  rcases hfresh : isFreshInternal n with _ | _
  · rw [set_internal_not_fresh n cs hfresh] at h
    injection h with h1 h2
    injection h2 with h2
    exact Or.inl h2.symm
  · cases n with
    | emptyNode t r c =>
      cases t with
      | zero => simp [isFreshInternal] at hfresh
      | succ m =>
        cases m with
        | zero =>
          rw [set_internal_fresh] at h
          by_cases he : cs.isEmpty
          · rw [if_pos he] at h
            injection h with h1 h2
            injection h2 with h2
            exact Or.inl h2.symm
          · rw [if_neg he] at h
            by_cases hd : dimsMatch r c cs = true
            · rw [if_pos hd] at h
              injection h with h1 h2
              injection h2 with h2
              exact Or.inr ⟨h2.symm, hd⟩
            · rw [if_neg hd] at h
              injection h with h1 h2
              injection h2 with h2
              exact Or.inl h2.symm
        | succ k => simp [isFreshInternal] at hfresh
    | leafNode r c vs => simp [isFreshInternal] at hfresh
    | internalNode r c cs2 => simp [isFreshInternal] at hfresh

theorem reachable_structInv (n : Node) (h : ReachableNode n) : structInv n = true := by
  induction h with
  | created r c k m hc =>
    unfold matrix_tree_create at hc
    by_cases h0 : r = 0 ∨ c = 0
    · rw [if_pos h0] at hc
      exact absurd hc (by simp)
    · rw [if_neg h0] at hc
      injection hc with hc
      rw [← hc]
      rfl
  | viaSetLeaf m data bs s n2 hn hdata hset ih =>
    rcases set_leaf_cases m data bs s n2 hset with rfl | hleaf
    · exact ih
    · rw [hleaf]
      simp only [structInv, List.length_take, beq_iff_eq]
      omega
  | viaSetInternal m cs s n2 hn hcs hset ih ihcs =>
    rcases set_internal_cases m cs s n2 hset with rfl | ⟨hint, hd⟩
    · exact ih
    · rw [hint]
      simp only [structInv]
      apply invChildren_of_forall
      intro t ht
      obtain ⟨h1, h2⟩ := (dimsMatch_iff _ _ cs).mp hd t ht
      exact ⟨h1, h2, ihcs t ht⟩
  | viaScale m a hn ih =>
    rw [structInv_scale m a]
    exact ih

/-- Scenario 2 of the spec (`test_internal_node`): an internal node with
the three 2×2 leaf children `[[1,0],[0,1]]`, `[[2,0],[0,2]]`,
`[[0.5,0],[0,0.5]]`. -/
def scenarioTwoTree : Node :=
  .internalNode 2 2 [.leafNode 2 2 [1, 0, 0, 1], .leafNode 2 2 [2, 0, 0, 2],
    .leafNode 2 2 [1/2, 0, 0, 1/2]]

/-- Scenario 4 of the spec (`test_nested_tree`): a root internal node
over `internal(leaf [[1,0],[0,1]], leaf [[0.5,0],[0,0.5]])` and the
sibling leaf `[[0.25,0],[0,0.25]]`. -/
def scenarioFourTree : Node :=
  .internalNode 2 2 [.internalNode 2 2 [.leafNode 2 2 [1, 0, 0, 1],
    .leafNode 2 2 [1/2, 0, 0, 1/2]], .leafNode 2 2 [1/4, 0, 0, 1/4]]

/-- C1: for every well-formed tree node and every input vector `x` of
length `cols`, `multiply(node, x, y)` with `y` zero-initialized of
length `rows` produces the same `y` as first materializing the dense
matrix with `collapse(node)` and then computing the standard dense
matrix-vector product of that matrix with `x`. -/
theorem multiply_refines_collapse (n : Node) (x : List ℚ)
    (h : wellFormed n = true) (hx : x.length = colsOf n) :
    matrix_tree_multiply_collapsed n x (zeroVec (rowsOf n))
      = denseMatVec (rowsOf n) (colsOf n) (matrix_tree_collapse n) x := by
  rw [multiply_eq_dense n x (zeroVec (rowsOf n)) h hx (length_zeroVec _)]
  exact zeroVec_addVec _ _ (length_denseMatVec _ _ _ _)

/-- Witness for C1 at the 2×2 leaf `[[1,2],[3,4]]` and `x = [1,1]`. -/
theorem multiply_refines_collapse_witness :
    wellFormed (Node.leafNode 2 2 [1, 2, 3, 4]) = true
      ∧ ([1, 1] : List ℚ).length = colsOf (Node.leafNode 2 2 [1, 2, 3, 4])
      ∧ matrix_tree_multiply_collapsed (Node.leafNode 2 2 [1, 2, 3, 4]) [1, 1]
          (zeroVec (rowsOf (Node.leafNode 2 2 [1, 2, 3, 4])))
        = denseMatVec (rowsOf (Node.leafNode 2 2 [1, 2, 3, 4]))
            (colsOf (Node.leafNode 2 2 [1, 2, 3, 4]))
            (matrix_tree_collapse (Node.leafNode 2 2 [1, 2, 3, 4])) [1, 1] :=
  ⟨by decide, by decide,
    multiply_refines_collapse (Node.leafNode 2 2 [1, 2, 3, 4]) [1, 1]
      (by decide) (by decide)⟩

/-- C2: collapsing an Internal node gives the elementwise sum of the
collapsed matrices of its children; the result is unchanged under any
permutation of the children; the scenario-2 tree collapses to
`[[3.5,0],[0,3.5]]` and the nested scenario-4 tree to
`[[1.75,0],[0,1.75]]`. -/
theorem collapse_internal_is_child_sum (r c : Nat) (cs cs2 : List Node)
    (h : wellFormed (Node.internalNode r c cs) = true) (hp : cs.Perm cs2) :
    matrix_tree_collapse (Node.internalNode r c cs)
        = List.foldr addVec (zeroVec (r * c)) (cs.map matrix_tree_collapse)
      ∧ matrix_tree_collapse (Node.internalNode r c cs)
        = matrix_tree_collapse (Node.internalNode r c cs2)
      ∧ matrix_tree_collapse scenarioTwoTree = [7/2, 0, 0, 7/2]
      ∧ matrix_tree_collapse scenarioFourTree = [7/4, 0, 0, 7/4] := by
  rw [wellFormed_internal] at h
  refine ⟨collapse_internal_eq_sum r c cs h.2,
    collapse_internal_perm r c cs cs2 h.2 hp, ?_, ?_⟩
  · simp [scenarioTwoTree, matrix_tree_collapse, collapseChildren, addVec, zeroVec]
    norm_num
  · simp [scenarioFourTree, matrix_tree_collapse, collapseChildren, addVec, zeroVec]
    norm_num

/-- Witness for C2 at the scenario-2 children, permuted by rotation. -/
theorem collapse_internal_is_child_sum_witness :
    wellFormed (Node.internalNode 2 2 [Node.leafNode 2 2 [1, 0, 0, 1],
        Node.leafNode 2 2 [2, 0, 0, 2], Node.leafNode 2 2 [1/2, 0, 0, 1/2]]) = true
      ∧ ([Node.leafNode 2 2 [1, 0, 0, 1], Node.leafNode 2 2 [2, 0, 0, 2],
          Node.leafNode 2 2 [1/2, 0, 0, 1/2]].Perm
          [Node.leafNode 2 2 [2, 0, 0, 2], Node.leafNode 2 2 [1, 0, 0, 1],
          Node.leafNode 2 2 [1/2, 0, 0, 1/2]])
      ∧ matrix_tree_collapse (Node.internalNode 2 2 [Node.leafNode 2 2 [1, 0, 0, 1],
          Node.leafNode 2 2 [2, 0, 0, 2], Node.leafNode 2 2 [1/2, 0, 0, 1/2]])
        = matrix_tree_collapse (Node.internalNode 2 2 [Node.leafNode 2 2 [2, 0, 0, 2],
          Node.leafNode 2 2 [1, 0, 0, 1], Node.leafNode 2 2 [1/2, 0, 0, 1/2]]) := by
  have hwf : wellFormed (Node.internalNode 2 2 [Node.leafNode 2 2 [1, 0, 0, 1],
      Node.leafNode 2 2 [2, 0, 0, 2], Node.leafNode 2 2 [1/2, 0, 0, 1/2]]) = true := by
    decide
  have hp : [Node.leafNode 2 2 [1, 0, 0, 1], Node.leafNode 2 2 [2, 0, 0, 2],
      Node.leafNode 2 2 [1/2, 0, 0, 1/2]].Perm
      [Node.leafNode 2 2 [2, 0, 0, 2], Node.leafNode 2 2 [1, 0, 0, 1],
      Node.leafNode 2 2 [1/2, 0, 0, 1/2]] :=
    List.Perm.swap _ _ _
  exact ⟨hwf, hp, (collapse_internal_is_child_sum 2 2 _ _ hwf hp).2.1⟩

/-- C3: for every well-formed Leaf node, `multiply(node, x, y)` performs
the standard dense row-major matrix-vector product, accumulating
`y[i] += Σ_j values[i*cols+j] * x[j]` for every row index `i`; in
particular the 3×3 leaf `[[1,2,3],[4,5,6],[7,8,9]]` with `x = [1,2,3]`
and zero-initialized `y` gives `y = [14,32,50]`. -/
theorem leaf_multiply_rowmajor (r c : Nat) (vs x y : List ℚ) (i : Nat)
    (hv : vs.length = r * c) (hx : x.length = c) (hy : y.length = r) (hi : i < r) :
    (matrix_tree_multiply_collapsed (Node.leafNode r c vs) x y).getD i 0
        = y.getD i 0
          + ((List.range c).map (fun j => vs.getD (i * c + j) 0 * x.getD j 0)).sum
      ∧ matrix_tree_multiply_collapsed (Node.leafNode 3 3 [1, 2, 3, 4, 5, 6, 7, 8, 9])
          [1, 2, 3] (zeroVec 3) = [14, 32, 50] := by
  constructor
  · simp only [matrix_tree_multiply_collapsed]
    rw [getD_leafMultLoop_lt vs x c r y i (by omega) hi, dotLoop_eq_sum]
  · simp [matrix_tree_multiply_collapsed, leafMultLoop, dotLoop, zeroVec]
    norm_num

/-- Witness for C3 at the 3×3 leaf of scenario 3, row 1. -/
theorem leaf_multiply_rowmajor_witness :
    ([1, 2, 3, 4, 5, 6, 7, 8, 9] : List ℚ).length = 3 * 3
      ∧ ([1, 2, 3] : List ℚ).length = 3
      ∧ (zeroVec 3).length = 3
      ∧ 1 < 3
      ∧ (matrix_tree_multiply_collapsed
          (Node.leafNode 3 3 [1, 2, 3, 4, 5, 6, 7, 8, 9]) [1, 2, 3]
          (zeroVec 3)).getD 1 0
        = (zeroVec 3).getD 1 0
          + ((List.range 3).map (fun j =>
              ([1, 2, 3, 4, 5, 6, 7, 8, 9] : List ℚ).getD (1 * 3 + j) 0
                * ([1, 2, 3] : List ℚ).getD j 0)).sum :=
  ⟨by decide, by decide, by simp [zeroVec], by decide,
    (leaf_multiply_rowmajor 3 3 [1, 2, 3, 4, 5, 6, 7, 8, 9] [1, 2, 3] (zeroVec 3) 1
      (by decide) (by decide) (by simp [zeroVec]) (by decide)).1⟩

/-- C4: for every well-formed tree node and scalar `a`, scaling and then
collapsing gives, elementwise, `a` times the pre-scale collapse. -/
theorem scale_then_collapse (n : Node) (a : ℚ) (h : wellFormed n = true) :
    matrix_tree_collapse (matrix_tree_scale n a)
      = (matrix_tree_collapse n).map (fun v => a * v) :=
  collapse_scale n a

/-- Witness for C4 at the 2×2 leaf `[[1,2],[3,4]]` and `a = 3`. -/
theorem scale_then_collapse_witness :
    wellFormed (Node.leafNode 2 2 [1, 2, 3, 4]) = true
      ∧ matrix_tree_collapse (matrix_tree_scale (Node.leafNode 2 2 [1, 2, 3, 4]) 3)
        = (matrix_tree_collapse (Node.leafNode 2 2 [1, 2, 3, 4])).map
            (fun v => 3 * v) :=
  ⟨by decide, scale_then_collapse (Node.leafNode 2 2 [1, 2, 3, 4]) 3 (by decide)⟩

/-- C5: for every well-formed tree node `n` and scalars `a`, `b`,
scaling by `a` and then by `b` leaves the tree in the same state as one
scale by `a*b`. -/
theorem scale_compose (n : Node) (a b : ℚ) (h : wellFormed n = true) :
    matrix_tree_scale (matrix_tree_scale n a) b = matrix_tree_scale n (a * b) :=
  scale_scale n a b

/-- Witness for C5 at the 2×2 leaf `[[1,2],[3,4]]`, `a = 2`, `b = 5`. -/
theorem scale_compose_witness :
    wellFormed (Node.leafNode 2 2 [1, 2, 3, 4]) = true
      ∧ matrix_tree_scale (matrix_tree_scale (Node.leafNode 2 2 [1, 2, 3, 4]) 2) 5
        = matrix_tree_scale (Node.leafNode 2 2 [1, 2, 3, 4]) (2 * 5) :=
  ⟨by decide, scale_compose (Node.leafNode 2 2 [1, 2, 3, 4]) 2 5 (by decide)⟩

/-- C6: every tree reachable through the public operations satisfies the
structural invariant (child dimensions equal the parent's, populated
leaf buffers have exactly `rows*cols` elements), and every operation
preserves it; `rows` and `cols` are fixed at creation and no operation
changes them. -/
theorem reachable_invariant (n : Node) (a : ℚ) (h : ReachableNode n) :
    structInv n = true
      ∧ (∀ r c k m, matrix_tree_create r c k = some m → rowsOf m = r ∧ colsOf m = c)
      ∧ rowsOf (matrix_tree_scale n a) = rowsOf n
      ∧ colsOf (matrix_tree_scale n a) = colsOf n
      ∧ (∀ data bs s n2, matrix_tree_set_leaf (some n) data bs = (s, some n2) →
          rowsOf n2 = rowsOf n ∧ colsOf n2 = colsOf n)
      ∧ (∀ cs s n2, matrix_tree_set_internal (some n) cs = (s, some n2) →
          rowsOf n2 = rowsOf n ∧ colsOf n2 = colsOf n) := by
  refine ⟨reachable_structInv n h, ?_, rowsOf_scale n a, colsOf_scale n a, ?_, ?_⟩
  · intro r c k m hc
    unfold matrix_tree_create at hc
    by_cases h0 : r = 0 ∨ c = 0
    · rw [if_pos h0] at hc
      exact absurd hc (by simp)
    · rw [if_neg h0] at hc
      injection hc with hc
      rw [← hc]
      exact ⟨rfl, rfl⟩
  · intro data bs s n2 hset
    exact set_leaf_dims n data bs s n2 hset
  · intro cs s n2 hset
    exact set_internal_dims n cs s n2 hset

/-- Witness for C6 at a freshly created 2×2 leaf node and `a = 2`. -/
theorem reachable_invariant_witness :
    ReachableNode (Node.emptyNode 0 2 2)
      ∧ (structInv (Node.emptyNode 0 2 2) = true
        ∧ (∀ r c k m, matrix_tree_create r c k = some m → rowsOf m = r ∧ colsOf m = c)
        ∧ rowsOf (matrix_tree_scale (Node.emptyNode 0 2 2) 2)
            = rowsOf (Node.emptyNode 0 2 2)
        ∧ colsOf (matrix_tree_scale (Node.emptyNode 0 2 2) 2)
            = colsOf (Node.emptyNode 0 2 2)
        ∧ (∀ data bs s n2,
            matrix_tree_set_leaf (some (Node.emptyNode 0 2 2)) data bs = (s, some n2) →
            rowsOf n2 = rowsOf (Node.emptyNode 0 2 2)
              ∧ colsOf n2 = colsOf (Node.emptyNode 0 2 2))
        ∧ (∀ cs s n2,
            matrix_tree_set_internal (some (Node.emptyNode 0 2 2)) cs = (s, some n2) →
            rowsOf n2 = rowsOf (Node.emptyNode 0 2 2)
              ∧ colsOf n2 = colsOf (Node.emptyNode 0 2 2))) :=
  have hre : ReachableNode (Node.emptyNode 0 2 2) :=
    ReachableNode.created 2 2 0 (Node.emptyNode 0 2 2) rfl
  ⟨hre, reachable_invariant (Node.emptyNode 0 2 2) 2 hre⟩

/-- C7: `set_internal(node, children, count)` succeeds exactly when the
child list is nonempty, every child's dimensions equal the node's own,
and the node is a freshly created Internal node with no children set; on
every failure the node is unchanged; on success the children are
retained in the given order; a NULL node fails. -/
theorem set_internal_contract (n : Node) (cs : List Node) :
    ((matrix_tree_set_internal (some n) cs).1 = 0 ↔
        cs ≠ [] ∧ (∀ t ∈ cs, rowsOf t = rowsOf n ∧ colsOf t = colsOf n)
          ∧ isFreshInternal n = true)
      ∧ ((matrix_tree_set_internal (some n) cs).1 ≠ 0 →
          (matrix_tree_set_internal (some n) cs).2 = some n)
      ∧ ((matrix_tree_set_internal (some n) cs).1 = 0 →
          (matrix_tree_set_internal (some n) cs).2
            = some (Node.internalNode (rowsOf n) (colsOf n) cs))
      ∧ (matrix_tree_set_internal none cs).1 ≠ 0 := by
  have hnone : (matrix_tree_set_internal none cs).1 ≠ 0 := by
    simp [matrix_tree_set_internal]
  rcases hfresh : isFreshInternal n with _ | _
  · rw [set_internal_not_fresh n cs hfresh]
    refine ⟨?_, fun _ => rfl, ?_, hnone⟩
    · simp [hfresh]
    · intro h0
      simp at h0
  · cases n with
    | emptyNode t r c =>
      cases t with
      | zero => simp [isFreshInternal] at hfresh
      | succ m =>
        cases m with
        | zero =>
          rw [set_internal_fresh]
          by_cases he : cs.isEmpty
          · rw [if_pos he]
            rw [List.isEmpty_iff] at he
            refine ⟨?_, fun _ => rfl, ?_, hnone⟩
            · simp [he]
            · intro h0
              simp at h0
          · rw [if_neg he]
            rw [List.isEmpty_iff] at he
            by_cases hd : dimsMatch r c cs = true
            · rw [if_pos hd]
              refine ⟨?_, ?_, fun _ => rfl, hnone⟩
              · constructor
                · intro _
                  refine ⟨he, ?_, hfresh⟩
                  intro t ht
                  have h2 := (dimsMatch_iff r c cs).mp hd t ht
                  simpa [rowsOf, colsOf] using h2
                · intro _
                  rfl
              · intro h0
                simp at h0
            · rw [if_neg hd]
              refine ⟨?_, fun _ => rfl, ?_, hnone⟩
              · constructor
                · intro h4
                  simp at h4
                · rintro ⟨h1, h2, h3⟩
                  refine absurd ((dimsMatch_iff r c cs).mpr ?_) hd
                  intro t ht
                  simpa [rowsOf, colsOf] using h2 t ht
              · intro h0
                simp at h0
        | succ k => simp [isFreshInternal] at hfresh
    | leafNode r c vs => simp [isFreshInternal] at hfresh
    | internalNode r c cs2 => simp [isFreshInternal] at hfresh

/-- Witness for C7: success on a fresh 2×2 Internal node with one
matching leaf child. -/
theorem set_internal_contract_witness :
    (matrix_tree_set_internal (some (Node.emptyNode 1 2 2))
        [Node.leafNode 2 2 [1, 0, 0, 1]]).2
      = some (Node.internalNode (rowsOf (Node.emptyNode 1 2 2))
          (colsOf (Node.emptyNode 1 2 2)) [Node.leafNode 2 2 [1, 0, 0, 1]]) :=
  (set_internal_contract (Node.emptyNode 1 2 2) [Node.leafNode 2 2 [1, 0, 0, 1]]).2.2.1
    (by decide)

/-- C8: `set_leaf(node, data, byte_size)` fails on a NULL node, on a
node that is not a fresh Leaf, and — with the size-mismatch error —
whenever `byte_size ≠ rows*cols*sizeof(f64)`; on success it stores a
copy of the caller's data in an internally owned buffer; on every
failure the node is unchanged. -/
theorem set_leaf_contract (n : Node) (data : List ℚ) (bs : Nat) :
    ((matrix_tree_set_leaf (some n) data bs).1 = 0 ↔
        isFreshLeaf n = true ∧ bs = rowsOf n * colsOf n * 8)
      ∧ ((matrix_tree_set_leaf (some n) data bs).1 ≠ 0 →
          (matrix_tree_set_leaf (some n) data bs).2 = some n)
      ∧ (isFreshLeaf n = true → bs ≠ rowsOf n * colsOf n * 8 →
          (matrix_tree_set_leaf (some n) data bs).1 = 2)
      ∧ ((matrix_tree_set_leaf (some n) data bs).1 = 0 →
          (matrix_tree_set_leaf (some n) data bs).2
            = some (Node.leafNode (rowsOf n) (colsOf n)
                (data.take (rowsOf n * colsOf n))))
      ∧ (matrix_tree_set_leaf none data bs).1 ≠ 0 := by
  have hnone : (matrix_tree_set_leaf none data bs).1 ≠ 0 := by
    simp [matrix_tree_set_leaf]
  rcases hfresh : isFreshLeaf n with _ | _
  · rw [set_leaf_not_fresh n data bs hfresh]
    refine ⟨?_, fun _ => rfl, ?_, ?_, hnone⟩
    · simp [hfresh]
    · intro hf
      exact absurd hf (by simp)
    · intro h0
      simp at h0
  · cases n with
    | emptyNode t r c =>
      cases t with
      | zero =>
        rw [set_leaf_fresh]
        by_cases hbs : bs = r * c * 8
        · rw [if_pos hbs]
          refine ⟨?_, ?_, ?_, fun _ => rfl, hnone⟩
          · constructor
            · intro _
              refine ⟨hfresh, ?_⟩
              simpa [rowsOf, colsOf] using hbs
            · intro _
              rfl
          · intro h0
            simp at h0
          · intro _ hne
            refine absurd ?_ hne
            simpa [rowsOf, colsOf] using hbs
        · rw [if_neg hbs]
          refine ⟨?_, fun _ => rfl, fun _ _ => rfl, ?_, hnone⟩
          · constructor
            · intro h2
              simp at h2
            · rintro ⟨h1, h2⟩
              refine absurd ?_ hbs
              simpa [rowsOf, colsOf] using h2
          · intro h0
            simp at h0
      | succ m => simp [isFreshLeaf] at hfresh
    | leafNode r c vs => simp [isFreshLeaf] at hfresh
    | internalNode r c cs => simp [isFreshLeaf] at hfresh

/-- Witness for C8: success on a fresh 2×2 Leaf node with a matching
byte size. -/
theorem set_leaf_contract_witness :
    (matrix_tree_set_leaf (some (Node.emptyNode 0 2 2)) [1, 2, 3, 4] 32).2
      = some (Node.leafNode (rowsOf (Node.emptyNode 0 2 2))
          (colsOf (Node.emptyNode 0 2 2))
          (([1, 2, 3, 4] : List ℚ).take
            (rowsOf (Node.emptyNode 0 2 2) * colsOf (Node.emptyNode 0 2 2)))) :=
  (set_leaf_contract (Node.emptyNode 0 2 2) [1, 2, 3, 4] 32).2.2.2.1 (by decide)

/-- C9: `collapse` and `multiply` leave the tree exactly as it was
before the call; `matrix_tree_scale` is the only operation that mutates
a node after construction, and it changes only leaf value buffers —
the type tags, dimensions, buffer lengths and child structure are
unchanged. -/
theorem read_ops_pure_scale_frame (n : Node) (x y : List ℚ) (a : ℚ) :
    (collapseOp n).2 = n
      ∧ (multiplyOp n x y).2 = n
      ∧ shapeOf (matrix_tree_scale n a) = shapeOf n
      ∧ rowsOf (matrix_tree_scale n a) = rowsOf n
      ∧ colsOf (matrix_tree_scale n a) = colsOf n :=
  ⟨rfl, rfl, shapeOf_scale n a, rowsOf_scale n a, colsOf_scale n a⟩

/-- C10: the helper `matrix_tree_create_leaf_with_data(rows, cols,
data)` returns NULL exactly when `matrix_tree_create` fails or
`matrix_tree_set_leaf` fails (so no half-constructed leaf escapes), and
on success it returns a Leaf node holding a copy of the first
`rows*cols` values of `data`. -/
theorem create_leaf_with_data_contract (r c : Nat) (data : List ℚ) :
    (matrix_tree_create_leaf_with_data r c data = none ↔
        matrix_tree_create r c 0 = none
          ∨ (matrix_tree_set_leaf (matrix_tree_create r c 0) data (r * c * 8)).1 ≠ 0)
      ∧ (∀ m, matrix_tree_create_leaf_with_data r c data = some m →
          m = Node.leafNode r c (data.take (r * c))
            ∧ (r * c ≤ data.length → (data.take (r * c)).length = r * c)) := by
  unfold matrix_tree_create_leaf_with_data
  by_cases h0 : r = 0 ∨ c = 0
  · have hc : matrix_tree_create r c 0 = none := by
      unfold matrix_tree_create
      rw [if_pos h0]
    rw [hc]
    constructor
    · simp
    · intro m hm
      simp at hm
  · have hc : matrix_tree_create r c 0 = some (Node.emptyNode 0 r c) := by
      unfold matrix_tree_create
      rw [if_neg h0]
    rw [hc]
    have hset : matrix_tree_set_leaf (some (Node.emptyNode 0 r c)) data (r * c * 8)
        = (0, some (Node.leafNode r c (data.take (r * c)))) := by
      rw [set_leaf_fresh, if_pos rfl]
    simp only [hset]
    constructor
    · simp
    · intro m hm
      simp at hm
      refine ⟨hm.symm, ?_⟩
      intro hlen
      rw [List.length_take]
      omega

/-- Witness for C10: with valid 2×2 data the helper does not return
NULL. -/
theorem create_leaf_with_data_contract_witness :
    matrix_tree_create_leaf_with_data 2 2 [(1 : ℚ), 2, 3, 4] ≠ none := by
  intro h
  rcases (create_leaf_with_data_contract 2 2 [1, 2, 3, 4]).1.mp h with hc | hs
  · exact absurd hc (by simp [matrix_tree_create])
  · exact hs rfl
